import Mathlib

/-!
Verification of the Monte-Carlo-tree-search engine and its tic-tac-toe game
implementation (`src/lib.rs`).

The engine (`mod mcts`) is embedded shallowly:

* The arena of `Node`s with `Cell` counters and parent back-pointers is
  modelled as an inductive rose tree; a node is addressed by the list of child
  indices leading to it from the root, and walking the parent chain of a node
  becomes updating every node along the root-to-node path (the same set of
  nodes).
* `visited : u32` is modelled as `ℕ` and `score : i32` as `ℤ`: the engine
  performs at most `MAX_TRIES = 10000` increments, and the only other write is
  `i32::MIN`, so no wrap-around is reachable and the unbounded types agree
  with the machine integers on every reachable value.
* The two draws from `rand::thread_rng` (`gen_range(0..len)` in
  `Node::random_child`, and the randomness consumed by `next_random_play`)
  are modelled by an explicit stream `g : ℕ → ℕ` of raw draws together with a
  running position `k`; `gen_range(0..len)` becomes `g k % len`.  Theorems
  about the engine hold for every stream, hence for every behaviour of the
  actual generator.
* The `f64` arithmetic inside `uct` cannot be executed exactly; the engine is
  therefore parameterised by the selection key function
  `uctF : ℕ → ℤ → ℤ → ℕ` (the source instantiates it with `uct`), and every
  engine theorem is proved for an arbitrary key.  The `uct` function itself is
  modelled separately over `ℝ`, and is only ever evaluated at arguments where
  every floating-point operation performed by the source is exact
  (`ln 1.0 = 0.0`, `sqrt 0.0 = 0.0`, small integers), so the real-valued
  model and the `f64` computation coincide at those points.
* Panics (`unwrap`, and the non-terminating playout loop `while board_status
  == InProgress`) are modelled by `Option`: the playout loop takes a fuel
  argument and `none` means the call does not return normally.
-/

/-- `Status<P>` from `src/lib.rs`. -/
inductive Status (P : Type) where
  | InProgress
  | Draw
  | Winner (p : P)
deriving DecidableEq

/-- The `GameState` trait bundled with `PlayerState::next` (`fn next`),
as consumed by the engine.  `next_random_play` receives the raw random draw
it consumes as an extra argument. -/
structure Game (S P : Type) where
  next_states : S → List S
  status : S → Status P
  toggle_player : S → S
  next_random_play : ℕ → S → S
  player_next : P → P

/-- `Node<'tree, S>`: the search-tree node.  The `parent` back-pointer of the
source is represented implicitly by tree paths, and the `Cell`s by functional
update. -/
inductive Node (S P : Type) : Type where
  | mk (state : S) (player : P) (visited : ℕ) (score : ℤ)
       (children : List (Node S P))

def Node.state : Node S P → S
  | .mk s _ _ _ _ => s

def Node.player : Node S P → P
  | .mk _ p _ _ _ => p

def Node.visited : Node S P → ℕ
  | .mk _ _ v _ _ => v

def Node.score : Node S P → ℤ
  | .mk _ _ _ sc _ => sc

def Node.children : Node S P → List (Node S P)
  | .mk _ _ _ _ cs => cs

/-- Replace the element at index `i` (out-of-range indices leave the list
unchanged); models writing through a reference into the arena. -/
def modList (f : α → α) : List α → ℕ → List α
  | [], _ => []
  | a :: as, 0 => f a :: as
  | a :: as, i + 1 => a :: modList f as i

/-- Fetch the node addressed by a path of child indices. -/
def getAt : Node S P → List ℕ → Option (Node S P)
  | t, [] => some t
  | t, i :: q =>
    match t.children[i]? with
    | some c => getAt c q
    | none => none

/-- Apply `f` to the node addressed by `p` (invalid paths leave the tree
unchanged). -/
def modifyAt (f : Node S P → Node S P) : Node S P → List ℕ → Node S P
  | t, [] => f t
  | .mk s p v sc cs, i :: q => .mk s p v sc (modList (fun c => modifyAt f c q) cs i)

theorem modList_length (f : α → α) (l : List α) (i : ℕ) :
    (modList f l i).length = l.length := by
  induction l generalizing i with
  | nil => rfl
  | cons a as ih => cases i <;> simp [modList, ih]

theorem getElem?_modList (f : α → α) (l : List α) (i j : ℕ) :
    (modList f l i)[j]? = if j = i then l[j]?.map f else l[j]? := by
  induction l generalizing i j with
  | nil => simp [modList]
  | cons a as ih =>
    cases i with
    | zero =>
      cases j with
      | zero => simp [modList]
      | succ j => simp [modList]
    | succ i =>
      cases j with
      | zero => simp [modList]
      | succ j => simpa [modList, Nat.succ_inj] using ih i j

theorem map_modList (g : α → β) (f : α → α) (l : List α) (i : ℕ)
    (h : ∀ a, g (f a) = g a) : (modList f l i).map g = l.map g := by
  induction l generalizing i with
  | nil => rfl
  | cons a as ih => cases i <;> simp [modList, h, ih]

/-- Helper for `maxByKeyLast`: running maximum, a later element replacing the
current one exactly when its key is ≥ (so ties keep the later element, the
behaviour of Rust's `Iterator::max_by_key`). -/
def maxByKeyLastGo [LinearOrder β] (key : α → β) (a : α) : List α → α
  | [] => a
  | b :: l => maxByKeyLastGo key (if key a ≤ key b then b else a) l

/-- `Iterator::max_by_key`: the last element with maximal key, `none` on an
empty list. -/
def maxByKeyLast [LinearOrder β] (key : α → β) : List α → Option α
  | [] => none
  | a :: l => some (maxByKeyLastGo key a l)

theorem maxByKeyLastGo_mem [LinearOrder β] (key : α → β) (a : α) (l : List α) :
    maxByKeyLastGo key a l = a ∨ maxByKeyLastGo key a l ∈ l := by
  induction l generalizing a with
  | nil => simp [maxByKeyLastGo]
  | cons b l ih =>
    rcases ih (if key a ≤ key b then b else a) with h | h
    · rw [maxByKeyLastGo, h]
      split <;> simp
    · simp [maxByKeyLastGo, h]

theorem maxByKeyLastGo_le [LinearOrder β] (key : α → β) (a : α) (l : List α) :
    key a ≤ key (maxByKeyLastGo key a l) ∧
      ∀ b ∈ l, key b ≤ key (maxByKeyLastGo key a l) := by
  induction l generalizing a with
  | nil => simp [maxByKeyLastGo]
  | cons b l ih =>
    obtain ⟨h1, h2⟩ := ih (if key a ≤ key b then b else a)
    rw [maxByKeyLastGo]
    refine ⟨?_, fun c hc => ?_⟩
    · exact le_trans (by split <;> simp_all [le_of_lt]) h1
    · rcases List.mem_cons.mp hc with rfl | hc
      · exact le_trans (by split <;> simp_all [le_of_lt]) h1
      · exact h2 c hc

theorem maxByKeyLast_mem [LinearOrder β] (key : α → β) (l : List α) (a : α)
    (h : maxByKeyLast key l = some a) : a ∈ l := by
  cases l with
  | nil => simp [maxByKeyLast] at h
  | cons b l =>
    simp only [maxByKeyLast, Option.some.injEq] at h
    rcases maxByKeyLastGo_mem key b l with h' | h' <;> subst h <;> simp [h']

theorem maxByKeyLast_le [LinearOrder β] (key : α → β) (l : List α) (a : α)
    (h : maxByKeyLast key l = some a) : ∀ b ∈ l, key b ≤ key a := by
  cases l with
  | nil => simp [maxByKeyLast] at h
  | cons c l =>
    simp only [maxByKeyLast, Option.some.injEq] at h
    obtain ⟨h1, h2⟩ := maxByKeyLastGo_le key c l
    intro b hb
    rcases List.mem_cons.mp hb with rfl | hb
    · exact h ▸ h1
    · exact h ▸ h2 b hb

theorem maxByKeyLast_isSome [LinearOrder β] (key : α → β) (l : List α)
    (h : l ≠ []) : ∃ a, maxByKeyLast key l = some a := by
  cases l with
  | nil => exact absurd rfl h
  | cons a l => exact ⟨_, rfl⟩

/-- Index form of `max_by_key` for the selection step: index of the last
element with maximal key. -/
def lastMaxIdxGo [LinearOrder β] (bi : ℕ) (bk : β) (i : ℕ) : List β → ℕ
  | [] => bi
  | k :: ks =>
    if bk ≤ k then lastMaxIdxGo i k (i + 1) ks else lastMaxIdxGo bi bk (i + 1) ks

def lastMaxIdx [LinearOrder β] : List β → ℕ
  | [] => 0
  | k :: ks => lastMaxIdxGo 0 k 1 ks

theorem lastMaxIdxGo_lt [LinearOrder β] (ks : List β) (bi : ℕ) (bk : β) (i : ℕ)
    (h : bi < i) : lastMaxIdxGo bi bk i ks < i + ks.length := by
  induction ks generalizing bi bk i with
  | nil => simpa [lastMaxIdxGo] using h
  | cons k ks ih =>
    rw [lastMaxIdxGo]
    split
    · have := ih i k (i + 1) (Nat.lt_succ_self i)
      simpa [Nat.add_comm, Nat.add_assoc, Nat.add_left_comm] using this
    · have := ih bi bk (i + 1) (Nat.lt_succ_of_lt h)
      simpa [Nat.add_comm, Nat.add_assoc, Nat.add_left_comm] using this

theorem lastMaxIdx_lt [LinearOrder β] (l : List β) (h : l ≠ []) :
    lastMaxIdx l < l.length := by
  cases l with
  | nil => exact absurd rfl h
  | cons k ks =>
    simpa [lastMaxIdx, Nat.add_comm] using lastMaxIdxGo_lt ks 0 k 1 Nat.one_pos

/-- `uct::find_best_node_with_uct` in index form, parameterised by the key
function `uctF` (the source instantiates it with `uct`).  Faithful to
line 201 of the source, the key of a child `n` is
`uctF parent_visit_count n.score n.score`: the child's `score` is passed both
as `win_score` and as `node_visit`; the child's `visited` counter is not
read. -/
def bestChildIdx (uctF : ℕ → ℤ → ℤ → ℕ) (t : Node S P) : ℕ :=
  lastMaxIdx (t.children.map fun n => uctF t.visited n.score n.score)

theorem bestChildIdx_lt (uctF : ℕ → ℤ → ℤ → ℕ) (t : Node S P)
    (h : t.children ≠ []) : bestChildIdx uctF t < t.children.length := by
  have := lastMaxIdx_lt
    (t.children.map fun n => uctF t.visited n.score n.score) (by simpa using h)
  simpa [bestChildIdx] using this

theorem sizeOf_children_lt [SizeOf S] [SizeOf P] (t : Node S P) :
    sizeOf t.children < sizeOf t := by
  cases t with
  | mk s p v sc cs => simp [Node.children]

/-- `select_promising_node`: descend through the child maximising the key
until reaching a node with no children; returns the path of child indices.
For a nonempty child list the best index is in range
(`bestChildIdx_lt`), so the `none` arm is taken exactly when the child list
is empty — the loop exit of the source. -/
def selectPath (uctF : ℕ → ℤ → ℤ → ℕ) (t : Node S P) : List ℕ :=
  match hc : t.children[bestChildIdx uctF t]? with
  | none => []
  | some c => bestChildIdx uctF t :: selectPath uctF c
termination_by sizeOf t
decreasing_by
  exact lt_trans (List.sizeOf_lt_of_mem (List.getElem?_mem hc))
    (sizeOf_children_lt t)

/-- `expand_node`: replace the children by one new node per `next_states`
entry, each carrying the alternated player tag and zero counters. -/
def expandNode (gme : Game S P) (t : Node S P) : Node S P :=
  .mk t.state t.player t.visited t.score
    ((gme.next_states t.state).map fun s' =>
      .mk s' (gme.player_next t.player) 0 0 [])

/-- One step of `back_propagation` at a single node: increment `visited`, and
increment `score` iff the node's own state's status equals the playout
outcome — this is what line 145 of the source compares; the node's `player`
field is not consulted. -/
def bumpNode [DecidableEq P] (gme : Game S P) (res : Status P) (t : Node S P) :
    Node S P :=
  .mk t.state t.player (t.visited + 1)
    (if gme.status t.state = res then t.score + 1 else t.score) t.children

/-- `back_propagation`: the source walks the parent chain from the simulated
node up to the root; the same set of nodes is updated here walking the
root-to-node path downwards. -/
def backPropagation [DecidableEq P] (gme : Game S P) (res : Status P) :
    Node S P → List ℕ → Node S P
  | t, [] => bumpNode gme res t
  | t, i :: q =>
    let m := bumpNode gme res t
    .mk m.state m.player m.visited m.score
      (modList (fun c => backPropagation gme res c q) m.children i)

def setScore (v : ℤ) (t : Node S P) : Node S P :=
  .mk t.state t.player t.visited v t.children

/-- `i32::MIN`, the minimum sentinel written by the simulation
short-circuit. -/
def i32Min : ℤ := -2147483648

/-- `u32::MAX`, returned by `uct` for an unvisited node. -/
def u32Max : ℕ := 4294967295

/-- The playout loop of `simulate_random_playout`
(`while board_status == Status::InProgress { toggle; next_random_play; .. }`)
with explicit fuel; `none` models a loop that never reaches a terminal
status.  Returns the terminal status and the next unused random-stream
position. -/
def playoutLoop [DecidableEq P] (gme : Game S P) (g : ℕ → ℕ) :
    ℕ → ℕ → S → Option (Status P × ℕ)
  | 0, k, s =>
    if gme.status s = .InProgress then none else some (gme.status s, k)
  | fuel + 1, k, s =>
    if gme.status s = .InProgress then
      playoutLoop gme g fuel (k + 1)
        (gme.next_random_play (g k) (gme.toggle_player s))
    else some (gme.status s, k)

/-- `simulate_random_playout` applied to the node at `path`: if the node's
state already shows the opponent as winner, drive the parent's score (the
node at `path.dropLast`, when the path is nonempty) to `i32::MIN` and return
that status without consuming randomness; otherwise run the playout loop on a
clone of the state. -/
def simulateRandomPlayout [DecidableEq P] (gme : Game S P) (g : ℕ → ℕ)
    (fuel : ℕ) (opponent : P) (t : Node S P) (path : List ℕ) (k : ℕ) :
    Option (Node S P × Status P × ℕ) :=
  match getAt t path with
  | none => none
  | some node =>
    if gme.status node.state = .Winner opponent then
      some (if path = [] then t else modifyAt (setScore i32Min) t path.dropLast,
        .Winner opponent, k)
    else
      match playoutLoop gme g fuel k node.state with
      | none => none
      | some (res, k') => some (t, res, k')

/-- One iteration of the search loop of `find_next_move`: selection,
expansion (when the selected state is in progress), choice of the node to
simulate (a random child of the just-expanded node when children exist),
simulation, backpropagation. -/
def mctsIteration [DecidableEq P] (uctF : ℕ → ℤ → ℤ → ℕ) (gme : Game S P)
    (g : ℕ → ℕ) (fuel : ℕ) (opponent : P) (t : Node S P) (k : ℕ) :
    Option (Node S P × ℕ) :=
  let path := selectPath uctF t
  match getAt t path with
  | none => none
  | some promising =>
    let t1 := if gme.status promising.state = .InProgress
      then modifyAt (expandNode gme) t path else t
    match getAt t1 path with
    | none => none
    | some promising1 =>
      let sim := if promising1.children.isEmpty then (path, k)
        else (path ++ [g k % promising1.children.length], k + 1)
      match simulateRandomPlayout gme g fuel opponent t1 sim.1 sim.2 with
      | none => none
      | some (t2, res, k2) => some (backPropagation gme res t2 sim.1, k2)

/-- The `for _ in 0..MAX_TRIES` loop. -/
def mctsLoop [DecidableEq P] (uctF : ℕ → ℤ → ℤ → ℕ) (gme : Game S P)
    (g : ℕ → ℕ) (fuel : ℕ) (opponent : P) :
    ℕ → Node S P → ℕ → Option (Node S P × ℕ)
  | 0, t, k => some (t, k)
  | n + 1, t, k =>
    match mctsIteration uctF gme g fuel opponent t k with
    | none => none
    | some (t', k') => mctsLoop uctF gme g fuel opponent n t' k'

def MAX_TRIES : ℕ := 10000

/-- `Node::child_with_max_score`: `max_by_key` over the children by score. -/
def childWithMaxScore (t : Node S P) : Option (Node S P) :=
  maxByKeyLast Node.score t.children

/-- `find_next_move`: build the root (tagged with the opponent of
`own_player`), run `MAX_TRIES` iterations, return the state of the root child
with maximal score.  `none` models the panics of the source (`unwrap` on an
empty child list, or a playout loop that never terminates). -/
def find_next_move [DecidableEq P] (uctF : ℕ → ℤ → ℤ → ℕ) (gme : Game S P)
    (g : ℕ → ℕ) (fuel : ℕ) (current_state : S) (own_player : P) : Option S :=
  let opponent := gme.player_next own_player
  let root := Node.mk current_state opponent 0 0 []
  match mctsLoop uctF gme g fuel opponent MAX_TRIES root 0 with
  | none => none
  | some (t, _) => (childWithMaxScore t).map Node.state

/-- Rust `num as u32` applied to a finite `f64`, as a function of the exact
real value: truncate toward zero and saturate into `[0, u32::MAX]` (for the
values the theorems evaluate, the argument is a nonnegative integer, where
truncation equals the floor). -/
noncomputable def f64ToU32 (x : ℝ) : ℕ :=
  (max 0 (min (u32Max : ℤ) ⌊x⌋)).toNat

/-- `uct::uct`.  The `f64` arithmetic is modelled over `ℝ`;
`win_score / node_visit` is the `i32` division of the source (truncation
toward zero, `Int.tdiv`) performed before the cast to `f64`.  The model
agrees with the source's `f64` computation at every argument where each
floating-point operation is exact — which holds at all arguments the theorems
below evaluate it at (`ln 1.0 = 0.0`, `sqrt 0.0 = 0.0`, small integers). -/
noncomputable def uct (total_visit : ℕ) (win_score node_visit : ℤ) : ℕ :=
  if node_visit = 0 then u32Max
  else
    f64ToU32 ((Int.tdiv win_score node_visit : ℝ) +
      Real.sqrt 2 * Real.sqrt (Real.log total_visit / (node_visit : ℝ)))

/-- `uct::find_best_node_with_uct` with the argument passing of line 201 of
the source: the key of a child `n` is
`uct(parent_visit_count, n.score.get(), n.score.get())` — the child's score
is passed both as `win_score` and as `node_visit`. -/
noncomputable def find_best_node_with_uct (t : Node S P) : Option (Node S P) :=
  maxByKeyLast (fun n => uct t.visited n.score n.score) t.children

/-- The selection key C2 describes, transcribed from the spec's words for
comparison: `uct` applied to the child's visit count as `node_visit`. -/
noncomputable def find_best_node_claimed (t : Node S P) : Option (Node S P) :=
  maxByKeyLast (fun n => uct t.visited n.score (n.visited : ℤ)) t.children

/-- The UCT value the spec's formula denotes (real-valued division),
transcribed from the spec's words for comparison with `uct`. -/
noncomputable def uctSpecFormula (total_visit : ℕ) (win_score node_visit : ℤ) : ℝ :=
  (win_score : ℝ) / (node_visit : ℝ) +
    Real.sqrt 2 * Real.sqrt (Real.log total_visit / (node_visit : ℝ))

/-- `tic_tac_toe::Player`. -/
inductive Player where
  | O
  | X
deriving DecidableEq

/-- `PlayerState::next` for `Player`. -/
def Player.next : Player → Player
  | .O => .X
  | .X => .O

/-- `tic_tac_toe::State`, the content of one cell. -/
inductive State where
  | Empty
  | X
  | O
deriving DecidableEq

/-- `impl From<Player> for State`. -/
def markOf : Player → State
  | .O => .O
  | .X => .X

/-- `tic_tac_toe::Board`: a 3×3 grid in row-major order plus the active
player. -/
structure Board where
  active_player : Player
  board : Fin 9 → State

/-- `Board::new`. -/
def Board.new (starter : Player) : Board :=
  ⟨starter, fun _ => .Empty⟩

/-- `Board::free_fields`: the number of empty cells
(`iter().filter(..).count()`). -/
def Board.free_fields (b : Board) : ℕ :=
  ((List.finRange 9).filter fun i => b.board i = State.Empty).length

/-- `Board::next_states` (the `GameState` impl): one successor per empty
cell, in cell order; each successor toggles `active_player` and writes the
*new* active player's mark into that cell. -/
def Board.next_states (b : Board) : List Board :=
  ((List.finRange 9).filter fun i => b.board i = State.Empty).map fun i =>
    { active_player := b.active_player.next
      board := Function.update b.board i (markOf b.active_player.next) }

/-- The eight winning triples (rows, columns, diagonals), in source order. -/
def allChecks : List (Fin 9 × Fin 9 × Fin 9) :=
  [(0, 1, 2), (3, 4, 5), (6, 7, 8),
   (0, 3, 6), (1, 4, 7), (2, 5, 8),
   (0, 4, 8), (2, 4, 6)]

/-- One `match` arm of the loop in `Board::status`: the winner of a triple
when its three cells hold one player's mark. -/
def checkWinner (bd : Fin 9 → State) (c : Fin 9 × Fin 9 × Fin 9) : Option Player :=
  match bd c.1, bd c.2.1, bd c.2.2 with
  | .X, .X, .X => some .X
  | .O, .O, .O => some .O
  | _, _, _ => none

/-- `Board::status`: a board with no free field is a `Draw` (this test comes
first in the source, before any win check); otherwise the first triple
filled by one player decides, else `InProgress`. -/
def Board.status (b : Board) : Status Player :=
  if b.free_fields = 0 then .Draw
  else
    match allChecks.findSome? (checkWinner b.board) with
    | some p => .Winner p
    | none => .InProgress

/-- `Board::toggle_player` (`GameState` impl). -/
def Board.toggle_player (b : Board) : Board :=
  { b with active_player := b.active_player.next }

/-- `Board::next_random_play`: fill the `r % free_fields`-th empty cell (in
cell order) with the active player's mark, `r` being the raw random draw.
The source panics when there is no free field (`gen_range(0..0)`); the model
returns the board unchanged there, a case the engine never reaches (the
playout loop calls this only on an `InProgress` state). -/
def Board.next_random_play (r : ℕ) (b : Board) : Board :=
  let empties := (List.finRange 9).filter fun i => b.board i = State.Empty
  match empties[r % empties.length]? with
  | some i =>
    { b with board := Function.update b.board i (markOf b.active_player) }
  | none => b

/-- The tic-tac-toe `GameState`/`PlayerState` implementation bundled as one
`Game`. -/
def tttGame : Game Board Player :=
  { next_states := Board.next_states
    status := Board.status
    toggle_player := Board.toggle_player
    next_random_play := Board.next_random_play
    player_next := Player.next }

theorem getAt_append (p q : List ℕ) (t : Node S P) :
    getAt t (p ++ q) = (getAt t p).bind (fun n => getAt n q) := by
  induction p generalizing t with
  | nil => simp [getAt]
  | cons i p ih =>
    rw [List.cons_append, getAt, getAt]
    cases t.children[i]? with
    | none => rfl
    | some c => exact ih c

theorem getAt_modifyAt_extend (f : Node S P → Node S P) (p : List ℕ)
    (t n : Node S P) (h : getAt t p = some n) (r : List ℕ) :
    getAt (modifyAt f t p) (p ++ r) = getAt (f n) r := by
  induction p generalizing t with
  | nil =>
    simp only [getAt, Option.some.injEq] at h
    subst h
    simp [modifyAt]
  | cons i p ih =>
    rw [getAt] at h
    cases t with
    | mk s pl v sc cs =>
      simp only [Node.children] at h
      cases hc : cs[i]? with
      | none => rw [hc] at h; exact absurd h (by simp)
      | some c =>
        rw [hc] at h
        rw [modifyAt, List.cons_append, getAt]
        simp only [Node.children, getElem?_modList, if_pos rfl, hc, Option.map_some']
        exact ih c h

/-- Observations that ignore the `score` and `children` components of every
node are unchanged by `modifyAt f` along any address `q` that does not pass
through the modified node (here `g` must be insensitive to the children
list; `f` is arbitrary). -/
theorem fieldAt_modifyAt_of_not_ext (g : Node S P → α) (f : Node S P → Node S P)
    (hgc : ∀ s pl v sc cs cs', g (.mk s pl v sc cs') = g (.mk s pl v sc cs))
    (p q : List ℕ) (t : Node S P) (h : ¬ ∃ r, q = p ++ r) :
    (getAt (modifyAt f t p) q).map g = (getAt t q).map g := by
  induction p generalizing q t with
  | nil => exact absurd ⟨q, rfl⟩ h
  | cons i p ih =>
    cases t with
    | mk s pl v sc cs =>
      cases q with
      | nil =>
        simp only [modifyAt, getAt]
        exact congrArg some (hgc s pl v sc cs _)
      | cons j q =>
        rw [modifyAt, getAt, getAt]
        simp only [Node.children, getElem?_modList]
        by_cases hij : j = i
        · subst hij
          simp only [if_pos rfl]
          cases hc : cs[j]? with
          | none => rfl
          | some c =>
            simp only [Option.map_some']
            exact ih q c (fun hex => h (hex.elim fun r hr => ⟨r, by simp [hr]⟩))
        · simp [if_neg hij]

/-- Writing a score through `modifyAt (setScore v)` changes exactly the score
of the node at `p` and no other observable field of any node. -/
theorem scoreAt_modifyAt_setScore (v : ℤ) (p : List ℕ) (t n : Node S P)
    (h : getAt t p = some n) (q : List ℕ) :
    (getAt (modifyAt (setScore v) t p) q).map Node.score =
      if q = p then some v else (getAt t q).map Node.score := by
  by_cases hext : ∃ r, q = p ++ r
  · obtain ⟨r, rfl⟩ := hext
    rw [getAt_modifyAt_extend (setScore v) p t n h r]
    cases r with
    | nil => simp [getAt, setScore, Node.score]
    | cons j r =>
      have hne : p ++ j :: r ≠ p := by
        intro hcontra
        have := congrArg List.length hcontra
        simp at this
      rw [if_neg hne]
      have : getAt (setScore v n) (j :: r) = getAt n (j :: r) := by
        rw [getAt, getAt]; rfl
      rw [this, getAt_append, h]
      rfl
  · have hne : q ≠ p := fun hqp => hext ⟨[], by simp [hqp]⟩
    rw [if_neg hne]
    exact fieldAt_modifyAt_of_not_ext Node.score (setScore v)
      (fun s pl vi sc cs cs' => rfl) p q t hext

theorem modList_id_of (f : α → α) (l : List α) (i : ℕ)
    (h : ∀ a, l[i]? = some a → f a = a) : modList f l i = l := by
  induction l generalizing i with
  | nil => rfl
  | cons a as ih =>
    cases i with
    | zero => simp [modList, h a (by simp)]
    | succ i => simpa [modList] using ih i (by simpa using h)

theorem modifyAt_of_getAt_none (f : Node S P → Node S P) (p : List ℕ)
    (t : Node S P) (h : getAt t p = none) : modifyAt f t p = t := by
  induction p generalizing t with
  | nil => simp [getAt] at h
  | cons i p ih =>
    cases t with
    | mk s pl v sc cs =>
      rw [getAt] at h
      simp only [Node.children] at h
      rw [modifyAt]
      cases hc : cs[i]? with
      | none =>
        rw [modList_id_of _ _ _ (fun a ha => by rw [hc] at ha; cases ha)]
      | some c =>
        rw [hc] at h
        rw [modList_id_of _ _ _ (fun a ha => ?_)]
        rw [hc] at ha
        cases ha
        exact ih c h

/-- Observations that depend only on the `state`, `player` and `visited`
components of a node are unchanged everywhere by writing a score through
`modifyAt (setScore v)`. -/
theorem fieldAt_modifyAt_setScore (g : Node S P → α) (v : ℤ)
    (hg : ∀ s pl vi sc cs sc' cs', g (.mk s pl vi sc' cs') = g (.mk s pl vi sc cs))
    (p q : List ℕ) (t : Node S P) :
    (getAt (modifyAt (setScore v) t p) q).map g = (getAt t q).map g := by
  have hpres : ∀ n : Node S P, g (setScore v n) = g n := by
    intro n; cases n; exact hg _ _ _ _ _ _ _
  by_cases hext : ∃ r, q = p ++ r
  · obtain ⟨r, rfl⟩ := hext
    cases hp : getAt t p with
    | none => rw [modifyAt_of_getAt_none _ _ _ hp]
    | some n =>
      rw [getAt_modifyAt_extend (setScore v) p t n hp r, getAt_append, hp]
      cases r with
      | nil => simp [getAt, hpres]
      | cons j r =>
        have : getAt (setScore v n) (j :: r) = getAt n (j :: r) := by
          rw [getAt, getAt]; rfl
        rw [this]
        rfl
  · exact fieldAt_modifyAt_of_not_ext g (setScore v)
      (fun s pl vi sc cs cs' => hg s pl vi sc cs sc cs') p q t hext

/-- Observations that depend only on the `state` and `player` of a node are
unchanged everywhere by backpropagation (which touches only counters). -/
theorem fieldAt_backPropagation [DecidableEq P] (g : Node S P → α)
    (gme : Game S P) (res : Status P)
    (hg : ∀ s pl v sc cs v' sc' cs',
      g (.mk s pl v' sc' cs') = g (.mk s pl v sc cs)) :
    ∀ (pth q : List ℕ) (t : Node S P),
      (getAt (backPropagation gme res t pth) q).map g = (getAt t q).map g := by
  intro pth
  induction pth with
  | nil =>
    intro q t
    cases t with
    | mk s pl v sc cs =>
      cases q with
      | nil =>
        simp only [backPropagation, bumpNode, getAt]
        exact congrArg some (hg _ _ _ _ _ _ _ _)
      | cons j q =>
        simp [backPropagation, bumpNode, Node.state, Node.player, Node.visited,
          Node.score, Node.children, getAt]
  | cons i pth ih =>
    intro q t
    cases t with
    | mk s pl v sc cs =>
      cases q with
      | nil =>
        simp only [backPropagation, bumpNode, Node.state, Node.player,
          Node.visited, Node.score, Node.children, getAt]
        exact congrArg some (hg _ _ _ _ _ _ _ _)
      | cons j q =>
        simp only [backPropagation, bumpNode, Node.state, Node.player,
          Node.visited, Node.score, Node.children, getAt, getElem?_modList]
        by_cases hij : j = i
        · subst hij
          simp only [if_pos rfl]
          cases hc : cs[j]? with
          | none => rfl
          | some c => simpa using ih q c
        · simp [if_neg hij]

theorem backPropagation_state [DecidableEq P] (gme : Game S P) (res : Status P)
    (t : Node S P) (pth : List ℕ) :
    (backPropagation gme res t pth).state = t.state := by
  cases pth <;> cases t <;> rfl

theorem backPropagation_children_map_state [DecidableEq P] (gme : Game S P)
    (res : Status P) (t : Node S P) (pth : List ℕ) :
    (backPropagation gme res t pth).children.map Node.state =
      t.children.map Node.state := by
  cases pth with
  | nil => cases t; rfl
  | cons i pth =>
    cases t with
    | mk s pl v sc cs =>
      simp only [backPropagation, bumpNode, Node.state, Node.player,
        Node.visited, Node.score, Node.children]
      exact map_modList _ _ _ _ (fun c => backPropagation_state gme res c pth)

theorem backPropagation_children_length [DecidableEq P] (gme : Game S P)
    (res : Status P) (t : Node S P) (pth : List ℕ) :
    (backPropagation gme res t pth).children.length = t.children.length := by
  cases pth with
  | nil => cases t; rfl
  | cons i pth =>
    cases t with
    | mk s pl v sc cs =>
      simp [backPropagation, bumpNode, Node.children, modList_length]

theorem modifyAt_nil (f : Node S P → Node S P) (t : Node S P) :
    modifyAt f t [] = f t := by
  cases t; rfl

theorem modifyAt_state (f : Node S P → Node S P)
    (hf : ∀ n, (f n).state = n.state) (t : Node S P) (p : List ℕ) :
    (modifyAt f t p).state = t.state := by
  cases p with
  | nil => rw [modifyAt_nil]; exact hf t
  | cons i p => cases t; rfl

theorem modifyAt_cons_children_map_state (f : Node S P → Node S P)
    (hf : ∀ n, (f n).state = n.state) (t : Node S P) (i : ℕ) (p : List ℕ) :
    (modifyAt f t (i :: p)).children.map Node.state =
      t.children.map Node.state := by
  cases t with
  | mk s pl v sc cs =>
    simp only [modifyAt, Node.children]
    exact map_modList _ _ _ _ (fun c => modifyAt_state f hf c p)

theorem modifyAt_cons_children_length (f : Node S P → Node S P) (t : Node S P)
    (i : ℕ) (p : List ℕ) :
    (modifyAt f t (i :: p)).children.length = t.children.length := by
  cases t with
  | mk s pl v sc cs => simp [modifyAt, Node.children, modList_length]

theorem expandNode_state (gme : Game S P) (t : Node S P) :
    (expandNode gme t).state = t.state := rfl

theorem setScore_state (v : ℤ) (t : Node S P) : (setScore v t).state = t.state := rfl

theorem sizeOf_pos_node [SizeOf S] [SizeOf P] (t : Node S P) : 1 ≤ sizeOf t := by
  cases t with
  | mk s p v sc cs => simp; omega

/-- The selection path is valid and ends at a node with no children. -/
theorem selectPath_spec (uctF : ℕ → ℤ → ℤ → ℕ) :
    ∀ (m : ℕ) (t : Node S P), sizeOf t ≤ m →
      ∃ n, getAt t (selectPath uctF t) = some n ∧ n.children = [] := by
  intro m
  induction m with
  | zero =>
    intro t ht
    exact absurd (lt_of_lt_of_le (sizeOf_pos_node t) ht) (by omega)
  | succ m ih =>
    intro t ht
    rw [selectPath.eq_def]
    split
    next hc =>
      refine ⟨t, by simp [getAt], ?_⟩
      by_contra hne
      have hlt : bestChildIdx uctF t < t.children.length :=
        bestChildIdx_lt uctF t hne
      rw [List.getElem?_eq_getElem hlt] at hc
      cases hc
    next c hc =>
      have hmem : c ∈ t.children := List.getElem?_mem hc
      have hsz : sizeOf c ≤ m := by
        have h1 : sizeOf c < sizeOf t.children := List.sizeOf_lt_of_mem hmem
        have h2 : sizeOf t.children < sizeOf t := sizeOf_children_lt t
        omega
      obtain ⟨n, hn, hleaf⟩ := ih c hsz
      refine ⟨n, ?_, hleaf⟩
      rw [getAt, hc]
      exact hn

theorem playoutLoop_ne_inprogress [DecidableEq P] (gme : Game S P) (g : ℕ → ℕ) :
    ∀ (fuel k : ℕ) (s : S) (r : Status P) (k' : ℕ),
      playoutLoop gme g fuel k s = some (r, k') → r ≠ .InProgress := by
  intro fuel
  induction fuel with
  | zero =>
    intro k s r k' h
    rw [playoutLoop] at h
    by_cases hs : gme.status s = .InProgress
    · simp [hs] at h
    · rw [if_neg hs] at h
      cases h
      exact hs
  | succ fuel ih =>
    intro k s r k' h
    rw [playoutLoop] at h
    by_cases hs : gme.status s = .InProgress
    · rw [if_pos hs] at h
      exact ih _ _ _ _ h
    · rw [if_neg hs] at h
      cases h
      exact hs

/-- If one toggled random play strictly decreases a measure on in-progress
states, the playout loop terminates given fuel above the measure. -/
theorem playoutLoop_total [DecidableEq P] (gme : Game S P) (g : ℕ → ℕ)
    (mu : S → ℕ)
    (hmu : ∀ r s, gme.status s = .InProgress →
      mu (gme.next_random_play r (gme.toggle_player s)) < mu s) :
    ∀ (fuel k : ℕ) (s : S), mu s < fuel → (playoutLoop gme g fuel k s).isSome := by
  intro fuel
  induction fuel with
  | zero => intro k s h; omega
  | succ fuel ih =>
    intro k s h
    rw [playoutLoop]
    by_cases hs : gme.status s = .InProgress
    · rw [if_pos hs]
      exact ih _ _ (lt_of_lt_of_le (hmu (g k) s hs) (by omega))
    · rw [if_neg hs]
      rfl

theorem selectPath_nil (uctF : ℕ → ℤ → ℤ → ℕ) (t : Node S P)
    (h : t.children = []) : selectPath uctF t = [] := by
  rw [selectPath.eq_def]
  split
  · rfl
  next c hc => rw [h] at hc; simp at hc

theorem selectPath_nil_iff (uctF : ℕ → ℤ → ℤ → ℕ) (t : Node S P) :
    selectPath uctF t = [] ↔ t.children = [] := by
  refine ⟨fun h => ?_, selectPath_nil uctF t⟩
  obtain ⟨n, hn, hch⟩ := selectPath_spec uctF (sizeOf t) t le_rfl
  rw [h] at hn
  simp only [getAt, Option.some.injEq] at hn
  rw [hn]
  exact hch

theorem simulate_nilpath [DecidableEq P] (gme : Game S P) (g : ℕ → ℕ)
    (fuel : ℕ) (opp : P) (t : Node S P) (k : ℕ) :
    simulateRandomPlayout gme g fuel opp t [] k =
      if gme.status t.state = .Winner opp then some (t, .Winner opp, k)
      else
        match playoutLoop gme g fuel k t.state with
        | none => none
        | some (res, k') => some (t, res, k') := by
  unfold simulateRandomPlayout
  simp [getAt]

theorem simulate_some [DecidableEq P] (gme : Game S P) (g : ℕ → ℕ) (fuel : ℕ)
    (opp : P) (t node : Node S P) (path : List ℕ) (k : ℕ)
    (hterm : ∀ (k' : ℕ) (s : S), (playoutLoop gme g fuel k' s).isSome)
    (hpath : getAt t path = some node) :
    ∃ t2 res k2,
      simulateRandomPlayout gme g fuel opp t path k = some (t2, res, k2) := by
  unfold simulateRandomPlayout
  rw [hpath]
  dsimp only
  by_cases hw : gme.status node.state = .Winner opp
  · rw [if_pos hw]
    exact ⟨_, _, _, rfl⟩
  · rw [if_neg hw]
    have := hterm k node.state
    cases hpl : playoutLoop gme g fuel k node.state with
    | none => rw [hpl] at this; simp at this
    | some rk =>
      cases rk with
      | mk res k' => exact ⟨t, res, k', rfl⟩

theorem modifyAt_children_map_state_all (f : Node S P → Node S P)
    (hfst : ∀ n, (f n).state = n.state)
    (hfch : ∀ n, (f n).children.map Node.state = n.children.map Node.state)
    (t : Node S P) (p : List ℕ) :
    (modifyAt f t p).children.map Node.state = t.children.map Node.state := by
  cases p with
  | nil => rw [modifyAt_nil]; exact hfch t
  | cons i p => exact modifyAt_cons_children_map_state f hfst t i p

theorem modifyAt_children_length_all (f : Node S P → Node S P)
    (hfch : ∀ n, (f n).children.length = n.children.length)
    (t : Node S P) (p : List ℕ) :
    (modifyAt f t p).children.length = t.children.length := by
  cases p with
  | nil => rw [modifyAt_nil]; exact hfch t
  | cons i p => exact modifyAt_cons_children_length f t i p

/-- The tree returned by a simulation has the same root state and the same
root children states as the input tree (the only write is a score). -/
theorem simulate_root_pres [DecidableEq P] (gme : Game S P) (g : ℕ → ℕ)
    (fuel : ℕ) (opp : P) (t : Node S P) (path : List ℕ) (k : ℕ)
    (t2 : Node S P) (res : Status P) (k2 : ℕ)
    (h : simulateRandomPlayout gme g fuel opp t path k = some (t2, res, k2)) :
    t2.state = t.state ∧
      t2.children.map Node.state = t.children.map Node.state ∧
      t2.children.length = t.children.length := by
  unfold simulateRandomPlayout at h
  cases hget : getAt t path with
  | none => rw [hget] at h; cases h
  | some node =>
    rw [hget] at h
    dsimp only at h
    by_cases hw : gme.status node.state = .Winner opp
    · rw [if_pos hw] at h
      by_cases hp : path = []
      · rw [if_pos hp] at h
        cases h
        exact ⟨rfl, rfl, rfl⟩
      · rw [if_neg hp] at h
        cases h
        refine ⟨modifyAt_state _ (setScore_state i32Min) t _, ?_, ?_⟩
        · exact modifyAt_children_map_state_all _ (setScore_state i32Min)
            (fun n => rfl) t _
        · exact modifyAt_children_length_all (setScore i32Min) (fun n => rfl) t _
    · rw [if_neg hw] at h
      cases hpl : playoutLoop gme g fuel k node.state with
      | none => rw [hpl] at h; cases h
      | some rk =>
        rw [hpl] at h
        cases rk with
        | mk r k' =>
          cases h
          exact ⟨rfl, rfl, rfl⟩

theorem expandNode_children_map_state (gme : Game S P) (n : Node S P) :
    (expandNode gme n).children.map Node.state = gme.next_states n.state := by
  have h : ∀ l : List S,
      (l.map (fun s' => Node.mk s' (gme.player_next n.player) 0 0
        ([] : List (Node S P)))).map Node.state = l := by
    intro l
    induction l with
    | nil => rfl
    | cons a l ih => simp [Node.state, ih]
  exact h (gme.next_states n.state)

/-- One iteration of the loop always succeeds when playouts terminate; it
keeps the root state, keeps the root children states when the root already
has children, and fills the children with the legal successor states when
the root is a childless in-progress node. -/
theorem mctsIteration_some [DecidableEq P] (uctF : ℕ → ℤ → ℤ → ℕ)
    (gme : Game S P) (g : ℕ → ℕ) (fuel : ℕ) (opp : P)
    (hterm : ∀ (k' : ℕ) (s : S), (playoutLoop gme g fuel k' s).isSome)
    (t : Node S P) (k : ℕ) :
    ∃ t' k', mctsIteration uctF gme g fuel opp t k = some (t', k') ∧
      t'.state = t.state ∧
      (t.children ≠ [] →
        t'.children.map Node.state = t.children.map Node.state) ∧
      (t.children = [] → gme.status t.state = .InProgress →
        t'.children.map Node.state = gme.next_states t.state) := by
  obtain ⟨leaf, hleaf, hleafch⟩ := selectPath_spec uctF (sizeOf t) t le_rfl
  by_cases hst : gme.status leaf.state = .InProgress
  · -- the selected leaf is expanded
    have hget1 : getAt (modifyAt (expandNode gme) t (selectPath uctF t))
        (selectPath uctF t) = some (expandNode gme leaf) := by
      have h := getAt_modifyAt_extend (expandNode gme) (selectPath uctF t)
        t leaf hleaf []
      rw [List.append_nil] at h
      rw [h]
      rfl
    have hT1state : (modifyAt (expandNode gme) t (selectPath uctF t)).state
        = t.state := modifyAt_state _ (expandNode_state gme) t _
    by_cases hch : ((expandNode gme leaf).children : List (Node S P)).isEmpty
    · -- the expansion produced no children: simulate the leaf itself
      obtain ⟨t2, res, k2, hsim⟩ := simulate_some gme g fuel opp _ _
        (selectPath uctF t) k hterm hget1
      refine ⟨backPropagation gme res t2 (selectPath uctF t), k2, ?_, ?_, ?_, ?_⟩
      · simp only [mctsIteration]
        rw [hleaf]
        dsimp only
        rw [if_pos hst, hget1]
        dsimp only
        rw [if_pos hch]
        dsimp only
        rw [hsim]
      · rw [backPropagation_state, (simulate_root_pres _ _ _ _ _ _ _ _ _ _ hsim).1,
          hT1state]
      · intro hne
        have hpathne : selectPath uctF t ≠ [] := by
          intro hnil
          exact hne ((selectPath_nil_iff uctF t).mp hnil)
        rw [backPropagation_children_map_state,
          (simulate_root_pres _ _ _ _ _ _ _ _ _ _ hsim).2.1]
        cases hp : selectPath uctF t with
        | nil => exact absurd hp hpathne
        | cons i p =>
          exact modifyAt_cons_children_map_state _ (expandNode_state gme) t i p
      · intro hnil hstatus
        have hpathnil : selectPath uctF t = [] := selectPath_nil uctF t hnil
        have hleaft : leaf = t := by
          rw [hpathnil] at hleaf
          simp only [getAt, Option.some.injEq] at hleaf
          exact hleaf.symm
        subst hleaft
        rw [backPropagation_children_map_state,
          (simulate_root_pres _ _ _ _ _ _ _ _ _ _ hsim).2.1, hpathnil,
          modifyAt_nil]
        exact expandNode_children_map_state gme leaf
    · -- a random child of the expansion is simulated
      have hlenpos : 0 < ((expandNode gme leaf).children : List (Node S P)).length := by
        cases hcs : ((expandNode gme leaf).children : List (Node S P)) with
        | nil => rw [hcs] at hch; exact absurd rfl hch
        | cons a l => simp
      have hjlt : g k % ((expandNode gme leaf).children : List (Node S P)).length
          < ((expandNode gme leaf).children : List (Node S P)).length :=
        Nat.mod_lt _ hlenpos
      have hsimpath : getAt (modifyAt (expandNode gme) t (selectPath uctF t))
          (selectPath uctF t ++ [g k % (expandNode gme leaf).children.length]) =
          some ((expandNode gme leaf).children[g k % (expandNode gme leaf).children.length]) := by
        rw [getAt_append, hget1]
        show getAt (expandNode gme leaf) _ = _
        rw [getAt, List.getElem?_eq_getElem hjlt]
        rfl
      obtain ⟨t2, res, k2, hsim⟩ := simulate_some gme g fuel opp _ _
        (selectPath uctF t ++ [g k % (expandNode gme leaf).children.length])
        (k + 1) hterm hsimpath
      refine ⟨backPropagation gme res t2
        (selectPath uctF t ++ [g k % (expandNode gme leaf).children.length]),
        k2, ?_, ?_, ?_, ?_⟩
      · simp only [mctsIteration]
        rw [hleaf]
        dsimp only
        rw [if_pos hst, hget1]
        dsimp only
        rw [if_neg hch]
        dsimp only
        rw [hsim]
      · rw [backPropagation_state, (simulate_root_pres _ _ _ _ _ _ _ _ _ _ hsim).1,
          hT1state]
      · intro hne
        have hpathne : selectPath uctF t ≠ [] := by
          intro hnil
          exact hne ((selectPath_nil_iff uctF t).mp hnil)
        rw [backPropagation_children_map_state,
          (simulate_root_pres _ _ _ _ _ _ _ _ _ _ hsim).2.1]
        cases hp : selectPath uctF t with
        | nil => exact absurd hp hpathne
        | cons i p =>
          exact modifyAt_cons_children_map_state _ (expandNode_state gme) t i p
      · intro hnil hstatus
        have hpathnil : selectPath uctF t = [] := selectPath_nil uctF t hnil
        have hleaft : leaf = t := by
          rw [hpathnil] at hleaf
          simp only [getAt, Option.some.injEq] at hleaf
          exact hleaf.symm
        subst hleaft
        rw [backPropagation_children_map_state,
          (simulate_root_pres _ _ _ _ _ _ _ _ _ _ hsim).2.1, hpathnil,
          modifyAt_nil]
        exact expandNode_children_map_state gme leaf
  · -- the selected leaf is terminal: no expansion, simulate the leaf
    have hchleaf : (leaf.children : List (Node S P)).isEmpty := by
      rw [hleafch]; rfl
    obtain ⟨t2, res, k2, hsim⟩ := simulate_some gme g fuel opp _ _
      (selectPath uctF t) k hterm hleaf
    refine ⟨backPropagation gme res t2 (selectPath uctF t), k2, ?_, ?_, ?_, ?_⟩
    · simp only [mctsIteration]
      rw [hleaf]
      dsimp only
      rw [if_neg hst, hleaf]
      dsimp only
      rw [if_pos hchleaf]
      dsimp only
      rw [hsim]
    · rw [backPropagation_state, (simulate_root_pres _ _ _ _ _ _ _ _ _ _ hsim).1]
    · intro hne
      rw [backPropagation_children_map_state,
        (simulate_root_pres _ _ _ _ _ _ _ _ _ _ hsim).2.1]
    · intro hnil hstatus
      have hpathnil : selectPath uctF t = [] := selectPath_nil uctF t hnil
      have hleaft : leaf = t := by
        rw [hpathnil] at hleaf
        simp only [getAt, Option.some.injEq] at hleaf
        exact hleaf.symm
      exact absurd (hleaft ▸ hstatus) hst

/-- Running any number of loop iterations on a tree whose root carries the
legal children succeeds and keeps the root state and root children states. -/
theorem mctsLoop_some [DecidableEq P] (uctF : ℕ → ℤ → ℤ → ℕ) (gme : Game S P)
    (g : ℕ → ℕ) (fuel : ℕ) (opp : P)
    (hterm : ∀ (k' : ℕ) (s' : S), (playoutLoop gme g fuel k' s').isSome)
    (s : S) (hns : gme.next_states s ≠ []) :
    ∀ (n : ℕ) (t : Node S P) (k : ℕ), t.state = s →
      t.children.map Node.state = gme.next_states s →
      ∃ t' k', mctsLoop uctF gme g fuel opp n t k = some (t', k') ∧
        t'.state = s ∧ t'.children.map Node.state = gme.next_states s ∧
        t'.children ≠ [] := by
  intro n
  induction n with
  | zero =>
    intro t k h1 h2
    refine ⟨t, k, rfl, h1, h2, ?_⟩
    intro hnil
    rw [hnil] at h2
    exact hns h2.symm
  | succ n ih =>
    intro t k h1 h2
    have h3 : t.children ≠ [] := by
      intro hnil
      rw [hnil] at h2
      exact hns h2.symm
    obtain ⟨t1, k1, hit, hst, hpres, _⟩ :=
      mctsIteration_some uctF gme g fuel opp hterm t k
    have h1' : t1.state = s := hst.trans h1
    have h2' : t1.children.map Node.state = gme.next_states s :=
      (hpres h3).trans h2
    obtain ⟨t', k', hl, ha, hb, hcne⟩ := ih t1 k1 h1' h2'
    refine ⟨t', k', ?_, ha, hb, hcne⟩
    rw [mctsLoop, hit]
    exact hl

/-- The main engine guarantee: on an in-progress state with at least one
legal successor and terminating playouts, `find_next_move` completes all of
its `MAX_TRIES` iterations and returns the state of a root child whose score
is maximal among all root children; that state is one of the legal
successors computed from the input state. -/
theorem find_next_move_main [DecidableEq P] (uctF : ℕ → ℤ → ℤ → ℕ)
    (gme : Game S P) (g : ℕ → ℕ) (fuel : ℕ) (s : S) (own : P)
    (h1 : gme.status s = .InProgress) (h2 : gme.next_states s ≠ [])
    (hterm : ∀ (k' : ℕ) (s' : S), (playoutLoop gme g fuel k' s').isSome) :
    ∃ t k c,
      mctsLoop uctF gme g fuel (gme.player_next own) MAX_TRIES
        (Node.mk s (gme.player_next own) 0 0 []) 0 = some (t, k) ∧
      t.state = s ∧
      childWithMaxScore t = some c ∧
      find_next_move uctF gme g fuel s own = some c.state ∧
      c ∈ t.children ∧ c.state ∈ gme.next_states s ∧
      ∀ c' ∈ t.children, c'.score ≤ c.score := by
  obtain ⟨t1, k1, hit, hst, _, hest⟩ := mctsIteration_some uctF gme g fuel
    (gme.player_next own) hterm (Node.mk s (gme.player_next own) 0 0 []) 0
  have h1' : t1.state = s := by rw [hst]; rfl
  have h2' : t1.children.map Node.state = gme.next_states s := by
    have := hest rfl (by show gme.status (Node.mk s (gme.player_next own) 0 0
      ([] : List (Node S P))).state = .InProgress; exact h1)
    rw [this]
    rfl
  obtain ⟨t, k, hloop, hts, htch, htne⟩ := mctsLoop_some uctF gme g fuel
    (gme.player_next own) hterm s h2 9999 t1 k1 h1' h2'
  have hloop' : mctsLoop uctF gme g fuel (gme.player_next own) MAX_TRIES
      (Node.mk s (gme.player_next own) 0 0 []) 0 = some (t, k) := by
    show mctsLoop uctF gme g fuel (gme.player_next own) (9999 + 1)
      (Node.mk s (gme.player_next own) 0 0 []) 0 = some (t, k)
    rw [mctsLoop, hit]
    exact hloop
  obtain ⟨c, hc⟩ := maxByKeyLast_isSome Node.score t.children htne
  refine ⟨t, k, c, hloop', hts, hc, ?_, maxByKeyLast_mem _ _ _ hc, ?_,
    maxByKeyLast_le _ _ _ hc⟩
  · simp only [find_next_move]
    rw [hloop']
    dsimp only
    simp only [childWithMaxScore]
    rw [hc]
    rfl
  · rw [← htch]
    exact List.mem_map_of_mem Node.state (maxByKeyLast_mem _ _ _ hc)

/-- Inversion of one successful iteration: the resulting tree is a
backpropagation over the tree after the (possible) expansion and the
(possible) sentinel write of the simulation. -/
theorem mctsIteration_inv [DecidableEq P] (uctF : ℕ → ℤ → ℤ → ℕ)
    (gme : Game S P) (g : ℕ → ℕ) (fuel : ℕ) (opp : P) (t : Node S P)
    (k : ℕ) (t' : Node S P) (k' : ℕ)
    (hit : mctsIteration uctF gme g fuel opp t k = some (t', k')) :
    ∃ (t1 t2 : Node S P) (sp : List ℕ) (res : Status P) (k1 : ℕ),
      (t1 = t ∨ t1 = modifyAt (expandNode gme) t (selectPath uctF t)) ∧
      (sp = selectPath uctF t ∨ ∃ j, sp = selectPath uctF t ++ [j]) ∧
      simulateRandomPlayout gme g fuel opp t1 sp k1 = some (t2, res, k') ∧
      t' = backPropagation gme res t2 sp := by
  simp only [mctsIteration] at hit
  split at hit
  · exact absurd hit (by simp)
  next promising hprom =>
    by_cases hst : gme.status promising.state = Status.InProgress
    · rw [if_pos hst] at hit
      split at hit
      · exact absurd hit (by simp)
      next promising1 hprom1 =>
        by_cases hch : (promising1.children : List (Node S P)).isEmpty
        · rw [if_pos hch] at hit
          dsimp only at hit
          split at hit
          · exact absurd hit (by simp)
          next t2 res k2 hsim =>
            rw [Option.some.injEq, Prod.mk.injEq] at hit
            obtain ⟨hT, hk⟩ := hit
            subst hk
            exact ⟨_, t2, _, res, k, Or.inr rfl, Or.inl rfl, hsim, hT.symm⟩
        · rw [if_neg hch] at hit
          dsimp only at hit
          split at hit
          · exact absurd hit (by simp)
          next t2 res k2 hsim =>
            rw [Option.some.injEq, Prod.mk.injEq] at hit
            obtain ⟨hT, hk⟩ := hit
            subst hk
            exact ⟨_, t2, _, res, k + 1, Or.inr rfl, Or.inr ⟨_, rfl⟩, hsim,
              hT.symm⟩
    · rw [if_neg hst] at hit
      split at hit
      · exact absurd hit (by simp)
      next promising1 hprom1 =>
        by_cases hch : (promising1.children : List (Node S P)).isEmpty
        · rw [if_pos hch] at hit
          dsimp only at hit
          split at hit
          · exact absurd hit (by simp)
          next t2 res k2 hsim =>
            rw [Option.some.injEq, Prod.mk.injEq] at hit
            obtain ⟨hT, hk⟩ := hit
            subst hk
            exact ⟨t, t2, _, res, k, Or.inl rfl, Or.inl rfl, hsim, hT.symm⟩
        · rw [if_neg hch] at hit
          dsimp only at hit
          split at hit
          · exact absurd hit (by simp)
          next t2 res k2 hsim =>
            rw [Option.some.injEq, Prod.mk.injEq] at hit
            obtain ⟨hT, hk⟩ := hit
            subst hk
            exact ⟨t, t2, _, res, k + 1, Or.inl rfl, Or.inr ⟨_, rfl⟩, hsim,
              hT.symm⟩

/-- Simulation never changes any node's `player` field. -/
theorem simulate_playerAt [DecidableEq P] (gme : Game S P) (g : ℕ → ℕ)
    (fuel : ℕ) (opp : P) (t : Node S P) (path : List ℕ) (k : ℕ)
    (t2 : Node S P) (res : Status P) (k2 : ℕ)
    (h : simulateRandomPlayout gme g fuel opp t path k = some (t2, res, k2)) :
    ∀ q, (getAt t2 q).map Node.player = (getAt t q).map Node.player := by
  unfold simulateRandomPlayout at h
  cases hget : getAt t path with
  | none => rw [hget] at h; cases h
  | some node =>
    rw [hget] at h
    dsimp only at h
    by_cases hw : gme.status node.state = .Winner opp
    · rw [if_pos hw] at h
      by_cases hp : path = []
      · rw [if_pos hp] at h
        cases h
        intro q; rfl
      · rw [if_neg hp] at h
        cases h
        intro q
        exact fieldAt_modifyAt_setScore Node.player i32Min
          (fun s pl vi sc cs sc' cs' => rfl) path.dropLast q t
    · rw [if_neg hw] at h
      cases hpl : playoutLoop gme g fuel k node.state with
      | none => rw [hpl] at h; cases h
      | some rk =>
        rw [hpl] at h
        cases rk with
        | mk r k' =>
          cases h
          intro q; rfl

/-- Transfer of the depth-indexed player invariant along an observation
equality. -/
theorem player_inv_transfer (t1 t2 : Node S P) (nx : P → P) (r0 : P)
    (hmap : ∀ q, (getAt t2 q).map Node.player = (getAt t1 q).map Node.player)
    (hinv : ∀ q n, getAt t1 q = some n → n.player = nx^[q.length] r0) :
    ∀ q n, getAt t2 q = some n → n.player = nx^[q.length] r0 := by
  intro q n hq
  have h := hmap q
  rw [hq] at h
  cases hq1 : getAt t1 q with
  | none => rw [hq1] at h; cases h
  | some m =>
    rw [hq1] at h
    simp only [Option.map_some', Option.some.injEq] at h
    rw [h]
    exact hinv q m hq1

/-- Expansion preserves the depth-indexed player invariant: every new child
is tagged with the `next` of its parent's tag. -/
theorem player_inv_expand (gme : Game S P) (r0 : P) (t : Node S P)
    (pth : List ℕ)
    (hinv : ∀ q n, getAt t q = some n →
      n.player = gme.player_next^[q.length] r0) :
    ∀ q n, getAt (modifyAt (expandNode gme) t pth) q = some n →
      n.player = gme.player_next^[q.length] r0 := by
  intro q n hq
  cases hnd : getAt t pth with
  | none =>
    rw [modifyAt_of_getAt_none _ _ _ hnd] at hq
    exact hinv q n hq
  | some nd =>
    by_cases hext : ∃ r, q = pth ++ r
    · obtain ⟨r, rfl⟩ := hext
      rw [getAt_modifyAt_extend _ _ _ _ hnd r] at hq
      cases r with
      | nil =>
        simp only [getAt, Option.some.injEq] at hq
        subst hq
        have hpl : (expandNode gme nd).player = nd.player := rfl
        rw [hpl, List.append_nil]
        exact hinv pth nd hnd
      | cons j r' =>
        rw [getAt] at hq
        cases hc : (expandNode gme nd).children[j]? with
        | none => rw [hc] at hq; cases hq
        | some c =>
          rw [hc] at hq
          dsimp only at hq
          obtain ⟨s', rfl⟩ :
              ∃ s', c = Node.mk s' (gme.player_next nd.player) 0 0 [] := by
            have h2 : ((gme.next_states nd.state).map (fun s' =>
                Node.mk s' (gme.player_next nd.player) 0 0
                  ([] : List (Node S P))))[j]? = some c := hc
            rw [List.getElem?_map] at h2
            cases hsj : (gme.next_states nd.state)[j]? with
            | none => rw [hsj] at h2; cases h2
            | some s' =>
              rw [hsj] at h2
              simp only [Option.map_some', Option.some.injEq] at h2
              exact ⟨s', h2.symm⟩
          cases r' with
          | nil =>
            simp only [getAt, Option.some.injEq] at hq
            subst hq
            have hlen : (pth ++ [j]).length = pth.length + 1 := by simp
            rw [hlen, Function.iterate_succ_apply', ← hinv pth nd hnd]
            rfl
          | cons j' r'' =>
            have hnone : getAt (Node.mk s' (gme.player_next nd.player) 0 0
                ([] : List (Node S P))) (j' :: r'') = (none : Option (Node S P)) := rfl
            rw [hnone] at hq
            cases hq
    · have h := fieldAt_modifyAt_of_not_ext Node.player (expandNode gme)
        (fun s pl v sc cs cs' => rfl) pth q t hext
      rw [hq] at h
      cases hq1 : getAt t q with
      | none => rw [hq1] at h; cases h
      | some m =>
        rw [hq1] at h
        simp only [Option.map_some', Option.some.injEq] at h
        rw [h]
        exact hinv q m hq1

/-- One iteration preserves the depth-indexed player invariant. -/
theorem mctsIteration_player [DecidableEq P] (uctF : ℕ → ℤ → ℤ → ℕ)
    (gme : Game S P) (g : ℕ → ℕ) (fuel : ℕ) (opp : P) (r0 : P)
    (t : Node S P) (k : ℕ) (t' : Node S P) (k' : ℕ)
    (hit : mctsIteration uctF gme g fuel opp t k = some (t', k'))
    (hinv : ∀ q n, getAt t q = some n →
      n.player = gme.player_next^[q.length] r0) :
    ∀ q n, getAt t' q = some n → n.player = gme.player_next^[q.length] r0 := by
  obtain ⟨t1, t2, sp, res, k1, ht1, hsp, hsim, hbp⟩ :=
    mctsIteration_inv uctF gme g fuel opp t k t' k' hit
  have hinv1 : ∀ q n, getAt t1 q = some n →
      n.player = gme.player_next^[q.length] r0 := by
    rcases ht1 with rfl | rfl
    · exact hinv
    · exact player_inv_expand gme r0 t _ hinv
  have hinv2 : ∀ q n, getAt t2 q = some n →
      n.player = gme.player_next^[q.length] r0 :=
    player_inv_transfer t1 t2 _ r0
      (simulate_playerAt gme g fuel opp t1 sp k1 t2 res k' hsim) hinv1
  subst hbp
  exact player_inv_transfer t2 _ _ r0
    (fun q => fieldAt_backPropagation Node.player gme res
      (fun s pl v sc cs v' sc' cs' => rfl) sp q t2) hinv2

/-- The whole loop preserves the depth-indexed player invariant. -/
theorem mctsLoop_player [DecidableEq P] (uctF : ℕ → ℤ → ℤ → ℕ)
    (gme : Game S P) (g : ℕ → ℕ) (fuel : ℕ) (opp : P) (r0 : P) :
    ∀ (n : ℕ) (t : Node S P) (k : ℕ) (t' : Node S P) (k' : ℕ),
      mctsLoop uctF gme g fuel opp n t k = some (t', k') →
      (∀ q m, getAt t q = some m → m.player = gme.player_next^[q.length] r0) →
      ∀ q m, getAt t' q = some m → m.player = gme.player_next^[q.length] r0 := by
  intro n
  induction n with
  | zero =>
    intro t k t' k' h hinv
    rw [mctsLoop] at h
    cases h
    exact hinv
  | succ n ih =>
    intro t k t' k' h hinv
    rw [mctsLoop] at h
    cases hi : mctsIteration uctF gme g fuel opp t k with
    | none => rw [hi] at h; cases h
    | some res =>
      rw [hi] at h
      cases res with
      | mk ti ki =>
        exact ih ti ki t' k' h
          (mctsIteration_player uctF gme g fuel opp r0 t k ti ki hi hinv)

/-- On a childless root whose state has no successor, every pass of the loop
leaves the root childless (only the counters change), whatever the
iteration count. -/
theorem mctsLoop_childless [DecidableEq P] (uctF : ℕ → ℤ → ℤ → ℕ)
    (gme : Game S P) (g : ℕ → ℕ) (fuel : ℕ) (opp : P) (s : S) (pl : P)
    (hnil : gme.next_states s = []) :
    ∀ (n v : ℕ) (sc : ℤ) (k : ℕ) (t' : Node S P) (k' : ℕ),
      mctsLoop uctF gme g fuel opp n (Node.mk s pl v sc []) k = some (t', k') →
      ∃ v' sc', t' = Node.mk s pl v' sc' [] := by
  intro n
  induction n with
  | zero =>
    intro v sc k t' k' h
    rw [mctsLoop] at h
    cases h
    exact ⟨v, sc, rfl⟩
  | succ n ih =>
    intro v sc k t' k' h
    rw [mctsLoop] at h
    cases hi : mctsIteration uctF gme g fuel opp (Node.mk s pl v sc []) k with
    | none => rw [hi] at h; cases h
    | some resi =>
      rw [hi] at h
      cases resi with
      | mk ti ki =>
        obtain ⟨t1, t2, sp, r, k1, ht1, hsp, hsim, hbp⟩ :=
          mctsIteration_inv uctF gme g fuel opp _ k ti ki hi
        have hsel : selectPath uctF (Node.mk s pl v sc ([] : List (Node S P)))
            = [] := selectPath_nil _ _ rfl
        have ht1shape : t1 = Node.mk s pl v sc [] := by
          rcases ht1 with rfl | rfl
          · rfl
          · rw [hsel, modifyAt_nil]
            show Node.mk _ _ _ _ _ = _
            simp only [Node.state, Node.player, Node.visited, Node.score, hnil,
              List.map_nil]
        subst ht1shape
        have hspnil : sp = [] := by
          rcases hsp with rfl | ⟨j, rfl⟩
          · exact hsel
          · exfalso
            rw [hsel] at hsim
            unfold simulateRandomPlayout at hsim
            have : getAt (Node.mk s pl v sc ([] : List (Node S P)))
                (([] : List ℕ) ++ [j]) = none := rfl
            rw [this] at hsim
            cases hsim
        subst hspnil
        have ht2 : t2 = Node.mk s pl v sc [] := by
          rw [simulate_nilpath] at hsim
          by_cases hw : gme.status (Node.mk s pl v sc
              ([] : List (Node S P))).state = .Winner opp
          · rw [if_pos hw] at hsim
            cases hsim
            rfl
          · rw [if_neg hw] at hsim
            cases hpl : playoutLoop gme g fuel k1 (Node.mk s pl v sc
                ([] : List (Node S P))).state with
            | none => rw [hpl] at hsim; cases hsim
            | some rk =>
              rw [hpl] at hsim
              cases rk with
              | mk r0 k0 =>
                cases hsim
                rfl
        subst ht2
        have hbp' : ti = Node.mk s pl (v + 1)
            (if gme.status s = r then sc + 1 else sc) [] := hbp
        rw [hbp'] at h
        exact ih (v + 1) _ ki t' k' h

theorem Board.status_inprogress_free (b : Board)
    (h : Board.status b = .InProgress) : b.free_fields ≠ 0 := by
  intro hz
  unfold Board.status at h
  rw [if_pos hz] at h
  cases h

theorem markOf_ne_empty (p : Player) : markOf p ≠ State.Empty := by
  cases p <;> simp [markOf]

/-- Flipping one selected element of a duplicate-free list out of the filter
strictly shrinks it. -/
theorem length_filter_flip (l : List α) (hnd : l.Nodup) (p q : α → Bool)
    (a : α) (ha : a ∈ l) (hpa : p a = true) (hqa : q a = false)
    (hpq : ∀ x, x ≠ a → q x = p x) :
    (l.filter q).length < (l.filter p).length := by
  induction l with
  | nil => cases ha
  | cons x xs ih =>
    have hnd' : xs.Nodup := (List.nodup_cons.mp hnd).2
    rcases List.mem_cons.mp ha with rfl | hmem
    · have hxs : ∀ y ∈ xs, q y = p y := fun y hy =>
        hpq y (fun hya => (List.nodup_cons.mp hnd).1 (hya ▸ hy))
      rw [List.filter_cons_of_pos hpa, List.filter_cons_of_neg (by simp [hqa])]
      rw [List.filter_congr hxs]
      simp
    · have hxa : x ≠ a := by
        intro hxaeq
        exact (List.nodup_cons.mp hnd).1 (hxaeq ▸ hmem)
      have hq : q x = p x := hpq x hxa
      by_cases hpx : p x = true
      · rw [List.filter_cons_of_pos hpx, List.filter_cons_of_pos (hq.trans hpx)]
        simp only [List.length_cons]
        exact Nat.succ_lt_succ (ih hnd' hmem)
      · rw [List.filter_cons_of_neg hpx,
          List.filter_cons_of_neg (fun hc0 => hpx (hq ▸ hc0))]
        exact ih hnd' hmem

/-- One random play on an in-progress board (after the toggle performed by
the playout loop) fills an empty cell, so the number of free fields strictly
decreases. -/
theorem ttt_play_decreases (r : ℕ) (b : Board)
    (h : Board.status b = .InProgress) :
    (Board.next_random_play r (Board.toggle_player b)).free_fields <
      b.free_fields := by
  have hfree : b.free_fields ≠ 0 := Board.status_inprogress_free b h
  have hemplen :
      (((List.finRange 9).filter fun i =>
        (Board.toggle_player b).board i = State.Empty)).length =
        b.free_fields := rfl
  have hpos : 0 < ((List.finRange 9).filter fun i =>
      (Board.toggle_player b).board i = State.Empty).length := by
    rw [hemplen]
    exact Nat.pos_of_ne_zero hfree
  have hlt : r % ((List.finRange 9).filter fun i =>
      (Board.toggle_player b).board i = State.Empty).length <
      ((List.finRange 9).filter fun i =>
        (Board.toggle_player b).board i = State.Empty).length :=
    Nat.mod_lt _ hpos
  simp only [Board.next_random_play]
  rw [List.getElem?_eq_getElem hlt]
  set emp := (List.finRange 9).filter fun i =>
    (Board.toggle_player b).board i = State.Empty with hempdef
  set i := emp[r % emp.length] with hidef
  have himem : i ∈ emp := List.getElem_mem hlt
  have hiempty : b.board i = State.Empty := by
    have := List.mem_filter.mp himem
    simpa using this.2
  show (((List.finRange 9).filter fun j =>
      (Function.update (Board.toggle_player b).board i
        (markOf (Board.toggle_player b).active_player)) j = State.Empty)).length
    < b.free_fields
  unfold Board.free_fields
  apply length_filter_flip (List.finRange 9) (List.nodup_finRange 9) _ _ i
    (List.mem_finRange i)
  · simpa using hiempty
  · simp [Function.update_same]
    exact markOf_ne_empty _
  · intro x hx
    simp [Function.update_noteq hx, Board.toggle_player]

theorem ttt_free_lt_ten (b : Board) : b.free_fields < 10 := by
  have h : b.free_fields ≤ 9 := by
    have h2 := List.length_filter_le
      (fun i => decide (b.board i = State.Empty)) (List.finRange 9)
    simpa [Board.free_fields, List.length_finRange] using h2
  omega

/-- Every tic-tac-toe playout terminates within fuel 10. -/
theorem ttt_playout_total (g : ℕ → ℕ) (k : ℕ) (b : Board) :
    (playoutLoop tttGame g 10 k b).isSome :=
  playoutLoop_total tttGame g Board.free_fields
    (fun r s hs => ttt_play_decreases r s hs) 10 k b (ttt_free_lt_ten b)

theorem uct_node_visit_zero (tv : ℕ) (ws : ℤ) : uct tv ws 0 = u32Max := by
  unfold uct
  rw [if_pos rfl]

theorem uct_eval_1_1_1 : uct 1 1 1 = 1 := by
  unfold uct
  rw [if_neg (by norm_num)]
  have ht : Int.tdiv 1 1 = 1 := by decide
  rw [ht]
  norm_num [Real.log_one, Real.sqrt_zero, f64ToU32, u32Max]

theorem uct_eval_1_0_1 : uct 1 0 1 = 0 := by
  unfold uct
  rw [if_neg (by norm_num)]
  have ht : Int.tdiv 0 1 = 0 := by decide
  rw [ht]
  norm_num [Real.log_one, Real.sqrt_zero, f64ToU32, u32Max]

theorem uct_eval_1_1_2 : uct 1 1 2 = 0 := by
  unfold uct
  rw [if_neg (by norm_num)]
  have ht : Int.tdiv 1 2 = 0 := by decide
  rw [ht]
  norm_num [Real.log_one, Real.sqrt_zero, f64ToU32, u32Max]

theorem uctSpecFormula_eval_1_1_2 : uctSpecFormula 1 1 2 = 1 / 2 := by
  unfold uctSpecFormula
  norm_num [Real.log_one, Real.sqrt_zero]

/-- A parent with one visit whose first child is unvisited but carries a
positive score and whose second child was visited once with score zero: the
source's selection key treats the first child as visited (its score is
passed as `node_visit`) and the unvisited-looking second child as
unexplored. -/
def uctCexChildA : Node Unit Bool := .mk () true 0 1 []

def uctCexChildB : Node Unit Bool := .mk () true 1 0 []

def uctCexParent : Node Unit Bool := .mk () false 1 0 [uctCexChildA, uctCexChildB]

theorem find_best_eval_code :
    find_best_node_with_uct uctCexParent = some uctCexChildB := by
  have h : find_best_node_with_uct uctCexParent =
      some (if uct 1 1 1 ≤ uct 1 0 0 then uctCexChildB else uctCexChildA) := rfl
  rw [h, uct_eval_1_1_1, uct_node_visit_zero]
  rw [if_pos (by norm_num [u32Max])]

theorem find_best_eval_claimed :
    find_best_node_claimed uctCexParent = some uctCexChildA := by
  have h : find_best_node_claimed uctCexParent =
      some (if uct 1 1 ((0 : ℕ) : ℤ) ≤ uct 1 0 ((1 : ℕ) : ℤ)
        then uctCexChildB else uctCexChildA) := rfl
  rw [h]
  rw [show ((0 : ℕ) : ℤ) = 0 from rfl, show ((1 : ℕ) : ℤ) = 1 from rfl]
  rw [uct_node_visit_zero, uct_eval_1_0_1]
  rw [if_neg (by norm_num [u32Max])]

theorem getAt_dropLast_isSome (t n : Node S P) (p : List ℕ) (hp : p ≠ [])
    (h : getAt t p = some n) : ∃ m, getAt t p.dropLast = some m := by
  have hsplit : p.dropLast ++ [p.getLast hp] = p := List.dropLast_append_getLast hp
  rw [← hsplit, getAt_append] at h
  cases hm : getAt t p.dropLast with
  | none => rw [hm] at h; cases h
  | some m => exact ⟨m, rfl⟩

theorem iterate_involutive_parity {Q : Type} (nx : Q → Q)
    (hnx : ∀ x, nx (nx x) = x) :
    ∀ (m : ℕ) (x : Q), nx^[m] x = if m % 2 = 0 then x else nx x := by
  intro m
  induction m with
  | zero => intro x; rfl
  | succ m ih =>
    intro x
    have hs : nx^[m + 1] x = nx (nx^[m] x) := Function.iterate_succ_apply' nx m x
    rw [hs, ih x]
    by_cases hm : m % 2 = 0
    · rw [if_pos hm, if_neg (by omega)]
    · rw [if_neg hm, hnx, if_pos (by omega)]

/-- A `GameState` implementation violating the contract: `InProgress` yet no
legal continuation (used to exhibit the empty-root error condition). -/
def brokenGame : Game Unit Bool :=
  { next_states := fun _ => []
    status := fun _ => .InProgress
    toggle_player := id
    next_random_play := fun _ => id
    player_next := not }

/-- A reachable full board whose top row is three `X`s (X's fifth mark filled
the last cell): by the rules a win for X. -/
def bFullWin : Board := ⟨.O, ![.X, .X, .X, .O, .O, .X, .O, .O, .X]⟩

/-- A board where X has completed the top row while four cells are free. -/
def bWinFree : Board := ⟨.O, ![.X, .X, .X, .O, .O, .Empty, .Empty, .Empty, .Empty]⟩

/-- The search-tree node used to exercise the simulation short-circuit: its
state already shows X (the opponent in the witness) as winner. -/
def c7Tree : Node Board Player := .mk bWinFree .O 0 0 []

theorem ttt_new_inprogress : tttGame.status (Board.new .O) = .InProgress := by
  decide

theorem ttt_new_next_states_ne_nil : tttGame.next_states (Board.new .O) ≠ [] := by
  intro hnil
  have hlen : (tttGame.next_states (Board.new .O)).length = 9 := by decide
  rw [hnil] at hlen
  cases hlen

/-- Claim C1 (code bug). The claim states that backpropagation increments
`score` exactly at the path nodes whose tracked perspective tag (`player`)
equals the playout outcome.  The source (line 145) instead compares the
node's *state's status* with the outcome and never reads `player`: a node
tagged with the winning player whose own state is still in progress gets its
visit counter incremented but not its score.  Evaluation at such a node:
empty board, tag `X`, outcome `Winner X`. -/
theorem back_propagation_ignores_player_tag :
    (Node.mk (Board.new .O) Player.X 0 0 ([] : List (Node Board Player))).player
      = Player.X ∧
    tttGame.status (Board.new .O) = .InProgress ∧
    (backPropagation tttGame (.Winner Player.X)
      (Node.mk (Board.new .O) Player.X 0 0 [])
      ([] : List ℕ)).visited = 1 ∧
    (backPropagation tttGame (.Winner Player.X)
      (Node.mk (Board.new .O) Player.X 0 0 [])
      ([] : List ℕ)).score = 0 :=
  ⟨rfl, by decide, by decide, by decide⟩

/-- Claim C2 (code bug). The claim states that selection computes each
child's UCT key from the child's visit count (as `node_visit`).  Line 201 of
the source passes the child's *score* both as `win_score` and as
`node_visit`.  On a parent with one visit, a child A with zero visits and
score one, and a child B with one visit and score zero, the source picks B
(its zero score makes it look unexplored), while the claimed computation
picks the genuinely unexplored A. -/
theorem find_best_node_uses_score_as_node_visit :
    uctCexChildA.visited = 0 ∧ uctCexChildB.visited = 1 ∧
    find_best_node_with_uct uctCexParent = some uctCexChildB ∧
    find_best_node_claimed uctCexParent = some uctCexChildA ∧
    uctCexChildA ≠ uctCexChildB :=
  ⟨rfl, rfl, find_best_eval_code, find_best_eval_claimed,
    fun h => absurd (congrArg Node.score h) (by decide)⟩

/-- Claim C3 (code bug). For `node_visit = 0` the function indeed returns
the maximum `u32` — but for `node_visit > 0` it does not equal the spec's
real-valued formula: the source divides `win_score / node_visit` in `i32`
(truncating) and casts the final `f64` to `u32` (truncating again).  At
`(total_visit, win_score, node_visit) = (1, 1, 2)` every floating-point
operation is exact, the spec's formula gives `1/2`, and the source returns
`0`. -/
theorem uct_integer_division_truncation :
    uct 1 1 0 = u32Max ∧ uct 1 1 2 = 0 ∧ uctSpecFormula 1 1 2 = 1 / 2 :=
  ⟨uct_node_visit_zero 1 1, uct_eval_1_1_2, uctSpecFormula_eval_1_1_2⟩

/-- Claim C4 (confirmed). On a non-terminal input with at least one legal
successor and terminating playouts, `find_next_move` returns the state of a
root child whose score is maximal among all root children, and that state is
one of `next_states` of the input. -/
theorem find_next_move_legal_and_max_score [DecidableEq P]
    (uctF : ℕ → ℤ → ℤ → ℕ) (gme : Game S P) (g : ℕ → ℕ) (fuel : ℕ) (s : S)
    (own : P) (h1 : gme.status s = .InProgress)
    (h2 : gme.next_states s ≠ [])
    (hterm : ∀ (k' : ℕ) (s' : S), (playoutLoop gme g fuel k' s').isSome) :
    ∃ r, find_next_move uctF gme g fuel s own = some r ∧
      r ∈ gme.next_states s ∧
      ∃ t k c, mctsLoop uctF gme g fuel (gme.player_next own) MAX_TRIES
          (Node.mk s (gme.player_next own) 0 0 []) 0 = some (t, k) ∧
        c ∈ t.children ∧ c.state = r ∧
        ∀ c' ∈ t.children, c'.score ≤ c.score := by
  obtain ⟨t, k, c, hl, hts, hc, hf, hmem, hst, hmax⟩ :=
    find_next_move_main uctF gme g fuel s own h1 h2 hterm
  exact ⟨c.state, hf, hst, t, k, c, hl, hmem, rfl, hmax⟩

theorem find_next_move_legal_and_max_score_witness :
    tttGame.status (Board.new .O) = .InProgress ∧
    tttGame.next_states (Board.new .O) ≠ [] ∧
    (∀ (k' : ℕ) (b : Board), (playoutLoop tttGame (fun _ => 0) 10 k' b).isSome) ∧
    (∃ r, find_next_move (fun _ _ _ => 0) tttGame (fun _ => 0) 10
        (Board.new .O) .X = some r ∧
      r ∈ tttGame.next_states (Board.new .O) ∧
      ∃ t k c, mctsLoop (fun _ _ _ => 0) tttGame (fun _ => 0) 10
          (tttGame.player_next .X) MAX_TRIES
          (Node.mk (Board.new .O) (tttGame.player_next .X) 0 0 []) 0
          = some (t, k) ∧
        c ∈ t.children ∧ c.state = r ∧
        ∀ c' ∈ t.children, c'.score ≤ c.score) :=
  ⟨ttt_new_inprogress, ttt_new_next_states_ne_nil,
    fun k' b => ttt_playout_total (fun _ => 0) k' b,
    find_next_move_legal_and_max_score (fun _ _ _ => 0) tttGame (fun _ => 0)
      10 (Board.new .O) .X ttt_new_inprogress ttt_new_next_states_ne_nil
      (fun k' b => ttt_playout_total (fun _ => 0) k' b)⟩

/-- Claim C5 (code bug). The claim states `status()` returns `Winner(p)`
whenever a triple is filled with `p`'s mark, including on a full board.
`Board::status` tests `free_fields == 0` first and returns `Draw` for every
full board — also for `bFullWin`, a reachable final position whose top row
is three `X`s. -/
theorem status_full_board_with_winning_row_is_draw :
    bFullWin.board 0 = .X ∧ bFullWin.board 1 = .X ∧ bFullWin.board 2 = .X ∧
    checkWinner bFullWin.board (0, 1, 2) = some .X ∧
    Board.status bFullWin = .Draw := by
  refine ⟨by decide, by decide, by decide, by decide, by decide⟩

/-- Claim C6 (code bug). The claim states terminal status and empty
`next_states` coincide.  `Board::next_states` enumerates every empty cell
regardless of the status: on `bWinFree` (X has won the top row, four cells
free) the status is `Winner X` yet four continuations are produced. -/
theorem next_states_nonempty_on_won_board :
    Board.status bWinFree = .Winner .X ∧
    (Board.next_states bWinFree).length = 4 := by
  refine ⟨by decide, by decide⟩

/-- Claim C7 (confirmed). If the state of the node chosen for simulation
already shows the opponent as winner, the simulation writes `i32::MIN` into
the parent's score (when a parent exists), returns that status at once and
consumes no randomness, leaving every other counter and every state
untouched; otherwise it changes no node at all and plays out to a
non-in-progress status. -/
theorem simulate_short_circuit_spec [DecidableEq P] (gme : Game S P)
    (g : ℕ → ℕ) (fuel : ℕ) (opp : P) (t node : Node S P) (path : List ℕ)
    (k : ℕ) (hnode : getAt t path = some node) :
    (gme.status node.state = .Winner opp →
      ∃ t', simulateRandomPlayout gme g fuel opp t path k =
          some (t', .Winner opp, k) ∧
        (∀ q, (getAt t' q).map Node.state = (getAt t q).map Node.state) ∧
        (∀ q, (getAt t' q).map Node.visited = (getAt t q).map Node.visited) ∧
        (path = [] → t' = t) ∧
        (path ≠ [] →
          (getAt t' path.dropLast).map Node.score = some i32Min ∧
          ∀ q, q ≠ path.dropLast →
            (getAt t' q).map Node.score = (getAt t q).map Node.score)) ∧
    (gme.status node.state ≠ .Winner opp →
      ∀ t' res k', simulateRandomPlayout gme g fuel opp t path k =
          some (t', res, k') → t' = t ∧ res ≠ .InProgress) := by
  constructor
  · intro hw
    refine ⟨if path = [] then t
        else modifyAt (setScore i32Min) t path.dropLast, ?_, ?_, ?_, ?_, ?_⟩
    · unfold simulateRandomPlayout
      rw [hnode]
      dsimp only
      rw [if_pos hw]
    · intro q
      by_cases hp : path = []
      · rw [if_pos hp]
      · rw [if_neg hp]
        exact fieldAt_modifyAt_setScore Node.state i32Min
          (fun s pl vi sc cs sc' cs' => rfl) path.dropLast q t
    · intro q
      by_cases hp : path = []
      · rw [if_pos hp]
      · rw [if_neg hp]
        exact fieldAt_modifyAt_setScore Node.visited i32Min
          (fun s pl vi sc cs sc' cs' => rfl) path.dropLast q t
    · intro hp
      rw [if_pos hp]
    · intro hp
      rw [if_neg hp]
      obtain ⟨m, hm⟩ := getAt_dropLast_isSome t node path hp hnode
      constructor
      · rw [scoreAt_modifyAt_setScore i32Min path.dropLast t m hm
          path.dropLast, if_pos rfl]
      · intro q hq
        rw [scoreAt_modifyAt_setScore i32Min path.dropLast t m hm q,
          if_neg hq]
  · intro hw t' res k' h
    unfold simulateRandomPlayout at h
    rw [hnode] at h
    dsimp only at h
    rw [if_neg hw] at h
    cases hpl : playoutLoop gme g fuel k node.state with
    | none => rw [hpl] at h; cases h
    | some rk =>
      rw [hpl] at h
      cases rk with
      | mk r k2 =>
        cases h
        exact ⟨rfl, playoutLoop_ne_inprogress gme g fuel k node.state res k'
          hpl⟩

theorem simulate_short_circuit_spec_witness :
    getAt c7Tree ([] : List ℕ) = some c7Tree ∧
    tttGame.status c7Tree.state = .Winner Player.X ∧
    (∃ t', simulateRandomPlayout tttGame (fun _ => 0) 10 Player.X c7Tree [] 0 =
        some (t', .Winner Player.X, 0) ∧
      (∀ q, (getAt t' q).map Node.state = (getAt c7Tree q).map Node.state) ∧
      (∀ q, (getAt t' q).map Node.visited =
        (getAt c7Tree q).map Node.visited) ∧
      (([] : List ℕ) = [] → t' = c7Tree) ∧
      (([] : List ℕ) ≠ [] →
        (getAt t' (List.dropLast [])).map Node.score = some i32Min ∧
        ∀ q, q ≠ List.dropLast [] →
          (getAt t' q).map Node.score = (getAt c7Tree q).map Node.score)) :=
  ⟨rfl, by decide,
    (simulate_short_circuit_spec tttGame (fun _ => 0) 10 Player.X c7Tree
      c7Tree [] 0 rfl).1 (by decide)⟩

/-- Claim C8 (confirmed). When the input state has no legal successor (a
contract violation on a non-terminal position) the root never acquires
children, `child_with_max_score` yields nothing, and `find_next_move`
aborts (the `unwrap` panic, modelled by `none`) instead of returning any
state. -/
theorem find_next_move_childless_root_fails [DecidableEq P]
    (uctF : ℕ → ℤ → ℤ → ℕ) (gme : Game S P) (g : ℕ → ℕ) (fuel : ℕ) (s : S)
    (own : P) (h1 : gme.status s = .InProgress)
    (h2 : gme.next_states s = []) :
    find_next_move uctF gme g fuel s own = none := by
  simp only [find_next_move]
  cases hl : mctsLoop uctF gme g fuel (gme.player_next own) MAX_TRIES
      (Node.mk s (gme.player_next own) 0 0 []) 0 with
  | none => rfl
  | some tk =>
    cases tk with
    | mk t k =>
      obtain ⟨v', sc', rfl⟩ := mctsLoop_childless uctF gme g fuel
        (gme.player_next own) s (gme.player_next own) h2 MAX_TRIES 0 0 0 t k hl
      rfl

theorem find_next_move_childless_root_fails_witness :
    brokenGame.status () = .InProgress ∧ brokenGame.next_states () = [] ∧
    find_next_move (fun _ _ _ => 0) brokenGame (fun _ => 0) 5 () true = none :=
  ⟨rfl, rfl, find_next_move_childless_root_fails (fun _ _ _ => 0) brokenGame
    (fun _ => 0) 5 () true rfl rfl⟩

/-- Claim C9 (confirmed). For a well-behaved game (a measure strictly
decreased by every toggled random play, bounded by the playout fuel, and a
non-terminal input with at least one successor), `find_next_move` completes
all `MAX_TRIES = 10000` iterations of its fixed budget — the loop equation
below runs exactly `MAX_TRIES` iterations — and returns a move; the
selection descent is a total function (`selectPath`) and the playout loop
returns within the measure bound. -/
theorem find_next_move_completes_budget [DecidableEq P]
    (uctF : ℕ → ℤ → ℤ → ℕ) (gme : Game S P) (g : ℕ → ℕ) (fuel : ℕ) (s : S)
    (own : P) (mu : S → ℕ) (h1 : gme.status s = .InProgress)
    (h2 : gme.next_states s ≠ [])
    (hmu : ∀ (r : ℕ) (s' : S), gme.status s' = .InProgress →
      mu (gme.next_random_play r (gme.toggle_player s')) < mu s')
    (hfuel : ∀ s', mu s' < fuel) :
    (∃ t k, mctsLoop uctF gme g fuel (gme.player_next own) MAX_TRIES
      (Node.mk s (gme.player_next own) 0 0 []) 0 = some (t, k)) ∧
    (find_next_move uctF gme g fuel s own).isSome := by
  have hterm : ∀ (k' : ℕ) (s' : S), (playoutLoop gme g fuel k' s').isSome :=
    fun k' s' => playoutLoop_total gme g mu hmu fuel k' s' (hfuel s')
  obtain ⟨t, k, c, hl, hts, hc, hf, hmem, hst, hmax⟩ :=
    find_next_move_main uctF gme g fuel s own h1 h2 hterm
  exact ⟨⟨t, k, hl⟩, by rw [hf]; rfl⟩

theorem find_next_move_completes_budget_witness :
    tttGame.status (Board.new .O) = .InProgress ∧
    tttGame.next_states (Board.new .O) ≠ [] ∧
    (∀ (r : ℕ) (b : Board), tttGame.status b = .InProgress →
      Board.free_fields (tttGame.next_random_play r (tttGame.toggle_player b))
        < Board.free_fields b) ∧
    (∀ b : Board, Board.free_fields b < 10) ∧
    ((∃ t k, mctsLoop (fun _ _ _ => 0) tttGame (fun _ => 0) 10
        (tttGame.player_next .X) MAX_TRIES
        (Node.mk (Board.new .O) (tttGame.player_next .X) 0 0 []) 0
        = some (t, k)) ∧
      (find_next_move (fun _ _ _ => 0) tttGame (fun _ => 0) 10
        (Board.new .O) .X).isSome) :=
  ⟨ttt_new_inprogress, ttt_new_next_states_ne_nil,
    fun r b hb => ttt_play_decreases r b hb, ttt_free_lt_ten,
    find_next_move_completes_budget (fun _ _ _ => 0) tttGame (fun _ => 0) 10
      (Board.new .O) .X Board.free_fields ttt_new_inprogress
      ttt_new_next_states_ne_nil (fun r b hb => ttt_play_decreases r b hb)
      ttt_free_lt_ten⟩

/-- Claim C10 (confirmed). The root built by `find_next_move` is tagged with
`own_player.next()` and expansion alternates tags, so in every tree
reachable by any number of loop iterations a node at even depth is tagged
with the opponent and a node at odd depth with `own_player` (for an
involutive `next`, as in the two-player game). -/
theorem perspective_alternation [DecidableEq P] (uctF : ℕ → ℤ → ℤ → ℕ)
    (gme : Game S P) (g : ℕ → ℕ) (fuel : ℕ) (own : P) (s : S) (N : ℕ)
    (hnx : ∀ x, gme.player_next (gme.player_next x) = x)
    (t : Node S P) (k : ℕ)
    (hloop : mctsLoop uctF gme g fuel (gme.player_next own) N
      (Node.mk s (gme.player_next own) 0 0 []) 0 = some (t, k))
    (q : List ℕ) (n : Node S P) (hq : getAt t q = some n) :
    n.player = if q.length % 2 = 0 then gme.player_next own else own := by
  have hroot : ∀ (q' : List ℕ) (m : Node S P),
      getAt (Node.mk s (gme.player_next own) 0 0
        ([] : List (Node S P))) q' = some m →
      m.player = gme.player_next^[q'.length] (gme.player_next own) := by
    intro q' m hm
    cases q' with
    | nil =>
      simp only [getAt, Option.some.injEq] at hm
      subst hm
      rfl
    | cons j q'' =>
      have hnone : getAt (Node.mk s (gme.player_next own) 0 0
          ([] : List (Node S P))) (j :: q'') = (none : Option (Node S P)) := rfl
      rw [hnone] at hm
      cases hm
  have h2 := mctsLoop_player uctF gme g fuel (gme.player_next own)
    (gme.player_next own) N _ 0 t k hloop hroot q n hq
  rw [h2, iterate_involutive_parity gme.player_next hnx q.length
    (gme.player_next own)]
  by_cases hq2 : q.length % 2 = 0
  · rw [if_pos hq2, if_pos hq2]
  · rw [if_neg hq2, if_neg hq2, hnx own]

theorem perspective_alternation_witness :
    (∀ x, tttGame.player_next (tttGame.player_next x) = x) ∧
    mctsLoop (fun _ _ _ => 0) tttGame (fun _ => 0) 10 (tttGame.player_next .X)
      0 (Node.mk (Board.new .O) (tttGame.player_next .X) 0 0 []) 0 =
      some (Node.mk (Board.new .O) (tttGame.player_next .X) 0 0 [], 0) ∧
    getAt (Node.mk (Board.new .O) (tttGame.player_next .X) 0 0
      ([] : List (Node Board Player))) ([] : List ℕ) =
      some (Node.mk (Board.new .O) (tttGame.player_next .X) 0 0 []) ∧
    (Node.mk (Board.new .O) (tttGame.player_next .X) 0 0
      ([] : List (Node Board Player))).player =
      if ([] : List ℕ).length % 2 = 0 then tttGame.player_next .X else .X :=
  ⟨fun x => by cases x <;> rfl, rfl, rfl,
    perspective_alternation (fun _ _ _ => 0) tttGame (fun _ => 0) 10 .X
      (Board.new .O) 0 (fun x => by cases x <;> rfl) _ 0 rfl [] _ rfl⟩
